import Mathlib

/-!
Verification of the `kagent-memory` repository's core: the fixed-size text
chunker (`src/kagent_memory/chunking/fixed_size.py`) and the memory service
orchestration (`src/kagent_memory/service/memory_service.py`).

Texts are modelled as `List Char` (Python strings as sequences of code
points).  Python library primitives used by the code (`str.strip`,
`str.rfind`, slicing) are embedded directly; external collaborators
(embedding provider, vector store, `hashlib.sha256`, the clock) are
parameters of the service model, and the service records every call it
makes to them in a trace so that "X is not invoked" is a statement about
the trace.
-/

namespace KagentMemory

/-- Whitespace characters stripped by Python's `str.strip()` (ASCII subset,
which is all the repository's inputs use): space, tab, newline, carriage
return, vertical tab, form feed. -/
def isPySpace (c : Char) : Bool :=
  c == ' ' || c == '\t' || c == '\n' || c == '\r' || c == '\x0b' || c == '\x0c'

/-- Python `s.strip()`: drop leading and trailing whitespace. -/
def pyStrip (l : List Char) : List Char :=
  ((l.dropWhile isPySpace).reverse.dropWhile isPySpace).reverse

/-- Python slice `s[a:b]` for `0 ≤ a`, `0 ≤ b` (clamped at the ends). -/
def pySlice (l : List Char) (a b : Nat) : List Char :=
  (l.take b).drop a

/-- Helper for `rfindIdx`: scan candidate start positions `i, i-1, …, 0`
and return the first (i.e. largest) at which `sep` occurs. -/
def rfindIdxAux (hay sep : List Char) : Nat → Option Nat
  | 0 => if sep.isPrefixOf hay then some 0 else none
  | i + 1 =>
    if sep.isPrefixOf (hay.drop (i + 1)) then some (i + 1)
    else rfindIdxAux hay sep i

/-- Python `hay.rfind(sep)`: the largest index at which `sep` occurs in
`hay`, as an `Option` (`none` for Python's `-1`). -/
def rfindIdx (hay sep : List Char) : Option Nat :=
  rfindIdxAux hay sep hay.length

/-- `Chunk` from `chunking/base.py`: a text chunk with position info.
The Python field `end` is called `endPos` here (`end` is a Lean keyword). -/
structure Chunk where
  text : List Char
  start : Nat
  endPos : Nat
  index : Nat
  deriving DecidableEq, Repr

/-- `SENTENCE_SEPARATORS` from `chunking/fixed_size.py`:
`[". ", ".\n", "\n\n", "\n", " "]`, in order of preference. -/
def SENTENCE_SEPARATORS : List (List Char) :=
  [['.', ' '], ['.', '\n'], ['\n', '\n'], ['\n'], [' ']]

/-- A validated `FixedSizeChunker`.  Every object constructed by the Python
`__init__` satisfies the two recorded invariants (it raises otherwise), so
they are carried as fields. -/
structure FixedSizeChunker where
  chunk_size : Nat
  overlap : Nat
  chunk_size_pos : 0 < chunk_size
  overlap_lt : overlap < chunk_size

/-- `FixedSizeChunker.__init__`: validate `chunk_size`/`overlap` (arbitrary
Python ints) and either raise `ValueError` (the spec's
`InvalidConfiguration`) or produce the chunker. -/
def FixedSizeChunker.init (chunk_size overlap : Int) :
    Except String FixedSizeChunker :=
  if h1 : chunk_size ≤ 0 then .error "chunk_size must be positive"
  else if h2 : overlap < 0 then .error "overlap must be non-negative"
  else if h3 : chunk_size ≤ overlap then .error "overlap must be less than chunk_size"
  else .ok ⟨chunk_size.toNat, overlap.toNat, by omega, by omega⟩

/-- The separator loop of `_find_break_point`: for each separator in order,
take the last occurrence in the window; if its offset exceeds
`min_chunk_size`, return `start + offset + len(sep)`; otherwise try the
next separator; if none qualifies, return the original `endPos`. -/
def breakScan (min_chunk_size : Nat) (region : List Char)
    (start endPos : Nat) : List (List Char) → Nat
  | [] => endPos
  | sep :: rest =>
    match rfindIdx region sep with
    | some i =>
      if min_chunk_size < i then start + i + sep.length
      else breakScan min_chunk_size region start endPos rest
    | none => breakScan min_chunk_size region start endPos rest

/-- `FixedSizeChunker._find_break_point(text, start, end)`. -/
def FixedSizeChunker.find_break_point (c : FixedSizeChunker)
    (text : List Char) (start endPos : Nat) : Nat :=
  breakScan (c.chunk_size / 2) (pySlice text start endPos) start endPos
    SENTENCE_SEPARATORS

/-- The tentative end of the chunk starting at `start`:
`min(start + chunk_size, len(text))`. -/
def FixedSizeChunker.tentativeEnd (c : FixedSizeChunker)
    (text : List Char) (start : Nat) : Nat :=
  min (start + c.chunk_size) text.length

/-- The final end of the chunk starting at `start`: the tentative end,
adjusted by `_find_break_point` when it falls short of the end of text. -/
def FixedSizeChunker.chunkEnd (c : FixedSizeChunker)
    (text : List Char) (start : Nat) : Nat :=
  if c.tentativeEnd text start < text.length
  then c.find_break_point text start (c.tentativeEnd text start)
  else c.tentativeEnd text start

/-- The next cursor position: `end - overlap`, forced to `end` when that
would not make forward progress.  (Python computes `end - overlap` in `ℤ`;
a negative value is `≤ start`, so truncated `ℕ` subtraction, which yields
`0 ≤ start`, selects the same branch and the same result.) -/
def FixedSizeChunker.nextStart (c : FixedSizeChunker)
    (text : List Char) (start : Nat) : Nat :=
  if c.chunkEnd text start - c.overlap ≤ start
  then c.chunkEnd text start
  else c.chunkEnd text start - c.overlap

/-- The `while start < len(text)` loop of `FixedSizeChunker.chunk`, with a
fuel parameter making the recursion structural; `chunk` supplies
`len(text) + 1` fuel, which is sufficient since the cursor strictly
increases on every iteration (proved below, claim C10). -/
def chunkLoop (c : FixedSizeChunker) (text : List Char) :
    Nat → Nat → Nat → List Chunk
  | 0, _, _ => []
  | fuel + 1, start, index =>
    if start < text.length then
      let e := c.chunkEnd text start
      let chunkText := pyStrip (pySlice text start e)
      let emitted : List Chunk :=
        if chunkText = [] then [] else [⟨chunkText, start, e, index⟩]
      let index' := if chunkText = [] then index else index + 1
      if text.length ≤ e then emitted
      else emitted ++ chunkLoop c text fuel (c.nextStart text start) index'
    else []

/-- `FixedSizeChunker.chunk(text)`: return `[]` for empty or
whitespace-only text, else run the chunking loop from `start = 0`,
`index = 0`. -/
def FixedSizeChunker.chunk (c : FixedSizeChunker) (text : List Char) :
    List Chunk :=
  if pyStrip text = [] then [] else chunkLoop c text (text.length + 1) 0 0

/-! ## The memory service (`service/memory_service.py`) -/

/-- Python values, as far as the service inspects them: strings, ints,
`None`, lists and (string-keyed) dicts. -/
inductive PyVal where
  | vStr : String → PyVal
  | vInt : Int → PyVal
  | vNone : PyVal
  | vList : List PyVal → PyVal
  | vDict : List (String × PyVal) → PyVal

/-- A Python dict with string keys, as an insertion-ordered association
list (real dicts never repeat a key). -/
abbrev Dict := List (String × PyVal)

/-- Python `d[k] = v`: replace the value at an existing key in place,
else append the new pair. -/
def dictSet (d : Dict) (k : String) (v : PyVal) : Dict :=
  match d with
  | [] => [(k, v)]
  | p :: rest => if p.1 = k then (k, v) :: rest else p :: dictSet rest k v

/-- Python `d.get(k)`: the value at the first occurrence of `k`. -/
def dictGet? (d : Dict) (k : String) : Option PyVal :=
  match d with
  | [] => none
  | p :: rest => if p.1 = k then some p.2 else dictGet? rest k

/-- Python `{**a, **b}` (and `a.update(b)`): fold `b`'s pairs into `a`,
later keys winning. -/
def dictMerge (a b : Dict) : Dict :=
  b.foldl (fun d p => dictSet d p.1 p.2) a

/-- The value at the LAST occurrence of `k` (what survives a merge). -/
def lastVal (b : Dict) (k : String) : Option PyVal :=
  match b with
  | [] => none
  | p :: rest =>
    match lastVal rest k with
    | some v => some v
    | none => if p.1 = k then some p.2 else none

/-- Left-biased choice on options (`x` if present, else `y`). -/
def oOr (x y : Option PyVal) : Option PyVal :=
  match x with
  | some v => some v
  | none => y

/-- Python truthiness of an optional string: `None` and `""` are falsy. -/
def truthy : Option String → Bool
  | none => false
  | some s => !(s == "")

/-- `if o: d[k] = o` — the pattern `add_memory`/`search_memory` use for the
optional identity fields. -/
def setIfTruthy (d : Dict) (k : String) : Option String → Dict
  | none => d
  | some s => if s == "" then d else dictSet d k (.vStr s)

/-- `AddMemoryResponse` from `models.py`. -/
structure AddMemoryResponse where
  memory_ids : List String
  chunks_created : Nat

/-- `MemorySearchRequest` from `models.py`. -/
structure MemorySearchRequest where
  query : String
  user_id : Option String
  session_id : Option String
  agent_name : Option String
  top_k : Nat
  score_threshold : Option Float
  filters : Dict

/-- `MemorySearchResult` from `models.py`. -/
structure MemorySearchResult where
  content : String
  metadata : Dict
  score : Float
  memory_id : String

/-- `MemorySearchResponse` from `models.py`. -/
structure MemorySearchResponse where
  results : List MemorySearchResult
  query : String

/-- One row returned by `VectorStore.search`. -/
structure SearchHit where
  id : String
  score : Float
  content : String
  metadata : Dict

/-- The service's external collaborators, as pure parameters: the
embedding provider, the vector store's `add` and `search`, Python's
`hashlib.sha256(...).hexdigest()` and `datetime.now(UTC).isoformat()`. -/
structure Env where
  embed : List (List Char) → List (List Float)
  storeAdd : List (List Float) → List (List Char) → List Dict → List String
  storeSearch : List Float → Nat → Option Dict → Option Float → List SearchHit
  sha256hex : List Char → String
  now_iso : String

/-- A record of every call the service made to the chunker, the embedding
provider and the vector store, so that "X was not invoked" is a statement
about the trace. -/
structure Trace where
  chunkCalls : List (List Char)
  embedCalls : List (List (List Char))
  addCalls : List (List (List Float) × List (List Char) × List Dict)
  searchCalls : List (List Float × Nat × Option Dict × Option Float)

/-- The base metadata built at the top of `add_memory`: `timestamp`,
`content_hash` (first 16 hex chars of the SHA-256 of the content), then
`user_id`/`session_id`/`agent_name` each added only if truthy. -/
def baseMetadata (env : Env) (content : List Char)
    (user_id session_id agent_name : Option String) : Dict :=
  setIfTruthy
    (setIfTruthy
      (setIfTruthy
        [("timestamp", PyVal.vStr env.now_iso),
         ("content_hash", PyVal.vStr ((env.sha256hex content).take 16))]
        "user_id" user_id)
      "session_id" session_id)
    "agent_name" agent_name

/-- The four per-chunk keys `add_memory` appends to each chunk's
metadata. -/
def chunkFields (ch : Chunk) (total : Nat) : Dict :=
  [("chunk_index", PyVal.vInt ch.index),
   ("chunk_start", PyVal.vInt ch.start),
   ("chunk_end", PyVal.vInt ch.endPos),
   ("total_chunks", PyVal.vInt total)]

/-- One chunk's persisted metadata:
`{**base_metadata, **metadata, "chunk_index": …, "chunk_start": …,
"chunk_end": …, "total_chunks": …}`. -/
def chunkMeta (base callerMeta : Dict) (ch : Chunk) (total : Nat) : Dict :=
  dictMerge (dictMerge base callerMeta) (chunkFields ch total)

/-- `MemoryService.add_memory`: hash, build base metadata, chunk; on zero
chunks return the empty response (embedder and store untouched); else
embed the chunk texts, build per-chunk metadata and store. -/
def addMemory (env : Env) (c : FixedSizeChunker) (content : List Char)
    (metadata : Dict) (user_id session_id agent_name : Option String) :
    AddMemoryResponse × Trace :=
  let base := baseMetadata env content user_id session_id agent_name
  let chunks := c.chunk content
  if chunks = [] then
    (⟨[], 0⟩, ⟨[content], [], [], []⟩)
  else
    let chunk_texts := chunks.map Chunk.text
    let vectors := env.embed chunk_texts
    let chunk_metadata := chunks.map fun ch => chunkMeta base metadata ch chunks.length
    let memory_ids := env.storeAdd vectors chunk_texts chunk_metadata
    (⟨memory_ids, chunks.length⟩,
     ⟨[content], [chunk_texts], [(vectors, chunk_texts, chunk_metadata)], []⟩)

/-- The filter map `search_memory` builds: a copy of the caller's
`filters`, then `user_id`/`session_id`/`agent_name` assigned (overriding)
when truthy. -/
def mergedFilters (req : MemorySearchRequest) : Dict :=
  setIfTruthy
    (setIfTruthy
      (setIfTruthy req.filters "user_id" req.user_id)
      "session_id" req.session_id)
    "agent_name" req.agent_name

/-- `MemoryService.search_memory`: embed the query, build the merged
filters (passing `None` when empty), search the store, and map each hit
to a `MemorySearchResult` in store order, echoing the query.
(Python's `query_vectors[0]` is modelled as `headD []`; an embedding
provider returning an empty list would raise `IndexError` in Python and
is outside the model.) -/
def searchMemory (env : Env) (req : MemorySearchRequest) :
    MemorySearchResponse × Trace :=
  let query_vector := (env.embed [req.query.toList]).headD []
  let filters := mergedFilters req
  let filtersArg : Option Dict := if filters.isEmpty then none else some filters
  let hits := env.storeSearch query_vector req.top_k filtersArg req.score_threshold
  (⟨hits.map fun h => ⟨h.content, h.metadata, h.score, h.id⟩, req.query⟩,
   ⟨[], [[req.query.toList]], [],
    [(query_vector, req.top_k, filtersArg, req.score_threshold)]⟩)

/-- Python `str(v)` as the service's f-strings use it.  Only the cases the
claims exercise (strings; `None` and ints for odd `author` values) are
rendered faithfully; composite values get a fixed placeholder. -/
def pyStrOf : PyVal → String
  | .vStr s => s
  | .vInt n => toString n
  | .vNone => "None"
  | .vList _ => "[...]"
  | .vDict _ => "\x7b...\x7d"

/-- The line contributed by one element of an ADK `parts` list: a dict
with a `"text"` key or a plain string yields `"{author}: {text}"`; any
other part is skipped silently. -/
def partLine (author : String) : PyVal → Option String
  | .vDict d =>
    match dictGet? d "text" with
    | some v => some (author ++ ": " ++ pyStrOf v)
    | none => none
  | .vStr s => some (author ++ ": " ++ s)
  | _ => none

/-- The lines contributed by one session event, per the extraction loop of
`add_session_to_memory`.  Non-dict events, absent/`None` content, and
content of unhandled type contribute nothing.  (A `parts` value that is
neither absent nor a list is outside the model: Python would iterate it
or raise.) -/
def eventLines (ev : PyVal) : List String :=
  match ev with
  | .vDict d =>
    let author := pyStrOf ((dictGet? d "author").getD (.vStr "unknown"))
    match dictGet? d "content" with
    | none => []
    | some .vNone => []
    | some (.vStr s) => [author ++ ": " ++ s]
    | some (.vDict cd) =>
      match dictGet? cd "parts" with
      | some (.vList ps) => ps.filterMap (partLine author)
      | _ => []
    | some _ => []
  | _ => []

/-- `MemoryService.add_session_to_memory`: extract one line per usable
event/part, and either return the empty response without touching any
collaborator, or join the lines with `"\n"` and delegate to `add_memory`
with `metadata={"source": "session"}` and `agent_name=app_name`. -/
def addSessionToMemory (env : Env) (c : FixedSizeChunker)
    (session_id user_id : String) (events : List PyVal)
    (app_name : Option String) : AddMemoryResponse × Trace :=
  let content_parts := (events.map eventLines).flatten
  if content_parts = [] then (⟨[], 0⟩, ⟨[], [], [], []⟩)
  else
    addMemory env c (String.intercalate "\n" content_parts).toList
      [("source", PyVal.vStr "session")] (some user_id) (some session_id)
      app_name

/-- Modelled from the spec sentence of claim C9 alone (for comparison with
the code): the caller-supplied filters with `user_id`/`session_id`/
`agent_name` added whenever NON-NULL — including the empty string. -/
def claimMergedFilters (req : MemorySearchRequest) : Dict :=
  let f1 := match req.user_id with
    | some x => dictSet req.filters "user_id" (.vStr x)
    | none => req.filters
  let f2 := match req.session_id with
    | some x => dictSet f1 "session_id" (.vStr x)
    | none => f1
  match req.agent_name with
  | some x => dictSet f2 "agent_name" (.vStr x)
  | none => f2

/-! ## Concrete fixtures used by witness theorems -/

/-- A `FixedSizeChunker(chunk_size=5, overlap=2)`. -/
def sampleChunker : FixedSizeChunker := ⟨5, 2, by decide, by decide⟩

/-- A `FixedSizeChunker(chunk_size=10, overlap=9)`, whose forced-progress
guard fires on `guardText`. -/
def guardChunker : FixedSizeChunker := ⟨10, 9, by decide, by decide⟩

/-- An eight-character sample text. -/
def sampleText : List Char := "abcdefgh".toList

/-- A text whose first window breaks at the space at offset 6, so that
`end - overlap ≤ start` and the guard sets the next start to `end`. -/
def guardText : List Char := "abcdef ghijklmnop".toList

/-- A fixed collaborator environment for witnesses: one-dimensional
embeddings, ids `"id0"`, `"id1"`, … from the store, a constant hash and
clock. -/
def sampleEnv : Env :=
  ⟨fun ts => ts.map fun _ => [(1.0 : Float)],
   fun _ ds _ => (List.range ds.length).map fun i => "id" ++ toString i,
   fun _ _ _ _ => [],
   fun _ => "aaaabbbbccccddddeeeeffff00001111",
   "2026-01-01T00:00:00+00:00"⟩

/-- The search request of claim C9's counterexample: `user_id` is the
empty string (non-null but falsy). -/
def emptyUserReq : MemorySearchRequest :=
  ⟨"hello", some "", none, none, 10, none, []⟩

/-- The two session events of claim C8's example. -/
def sessionEvents : List PyVal :=
  [.vDict [("author", .vStr "user"), ("content", .vStr "Hello")],
   .vDict [("author", .vStr "assistant"), ("content", .vStr "Hi")]]

/-! ## Properties of `rfind` -/

theorem rfindIdxAux_some {hay sep : List Char} {n i : Nat}
    (h : rfindIdxAux hay sep n = some i) :
    i ≤ n ∧ sep.isPrefixOf (hay.drop i) = true := by
  induction n with
  | zero =>
    simp only [rfindIdxAux] at h
    split at h
    · cases h
      exact ⟨Nat.le_refl 0, by assumption⟩
    · cases h
  | succ k ih =>
    simp only [rfindIdxAux] at h
    split at h
    · cases h
      exact ⟨Nat.le_refl _, by assumption⟩
    · obtain ⟨h1, h2⟩ := ih h
      exact ⟨Nat.le_succ_of_le h1, h2⟩

theorem rfindIdxAux_max {hay sep : List Char} {n i : Nat}
    (h : rfindIdxAux hay sep n = some i) :
    ∀ j, i < j → j ≤ n → ¬(sep.isPrefixOf (hay.drop j) = true) := by
  induction n with
  | zero =>
    intro j hij hjn
    omega
  | succ k ih =>
    intro j hij hjn hp
    simp only [rfindIdxAux] at h
    split at h
    · cases h
      omega
    · rename_i hq
      rcases Nat.lt_or_ge j (k + 1) with hj | hj
      · exact ih h j hij (by omega) hp
      · have : j = k + 1 := by omega
        subst this
        exact hq hp

theorem rfindIdxAux_none {hay sep : List Char} {n : Nat}
    (h : rfindIdxAux hay sep n = none) :
    ∀ j, j ≤ n → ¬(sep.isPrefixOf (hay.drop j) = true) := by
  induction n with
  | zero =>
    intro j hj hp
    simp only [rfindIdxAux] at h
    split at h
    · cases h
    · rename_i hq
      have : j = 0 := by omega
      subst this
      exact hq hp
  | succ k ih =>
    intro j hj hp
    simp only [rfindIdxAux] at h
    split at h
    · cases h
    · rename_i hq
      rcases Nat.lt_or_ge j (k + 1) with hj' | hj'
      · exact ih h j (by omega) hp
      · have : j = k + 1 := by omega
        subst this
        exact hq hp

theorem rfindIdx_some {hay sep : List Char} {i : Nat}
    (h : rfindIdx hay sep = some i) :
    i ≤ hay.length ∧ i + sep.length ≤ hay.length ∧
      sep.isPrefixOf (hay.drop i) = true := by
  obtain ⟨h1, h2⟩ := rfindIdxAux_some h
  have h3 : sep.length ≤ (hay.drop i).length :=
    (List.isPrefixOf_iff_prefix.mp h2).length_le
  rw [List.length_drop] at h3
  exact ⟨h1, by omega, h2⟩

/-- `rfindIdx hay sep = some i` exactly when `i` is the LAST index at which
`sep` occurs in `hay` — the defining property of Python's `rfind`. -/
theorem rfindIdx_iff (hay sep : List Char) (i : Nat) :
    rfindIdx hay sep = some i ↔
      (i ≤ hay.length ∧ sep.isPrefixOf (hay.drop i) = true ∧
       ∀ j, j ≤ hay.length → sep.isPrefixOf (hay.drop j) = true → j ≤ i) := by
  constructor
  · intro h
    obtain ⟨h1, _, h2⟩ := rfindIdx_some h
    refine ⟨h1, h2, ?_⟩
    intro j hj hpj
    by_contra hlt
    push_neg at hlt
    exact rfindIdxAux_max h j hlt hj hpj
  · rintro ⟨h1, h2, h3⟩
    cases e : rfindIdx hay sep with
    | none => exact absurd h2 (rfindIdxAux_none e i h1)
    | some i' =>
      obtain ⟨hle, hp⟩ := rfindIdxAux_some e
      have hii' : i' ≤ i := h3 i' hle hp
      have hi'i : i ≤ i' := by
        by_contra hx
        push_neg at hx
        exact rfindIdxAux_max e i hx h1 h2
      have : i = i' := by omega
      rw [this]

/-! ## Properties of the break-point search -/

theorem breakScan_le {min_chunk_size : Nat} {region : List Char}
    {start endPos : Nat} (h : start + region.length ≤ endPos)
    (seps : List (List Char)) :
    breakScan min_chunk_size region start endPos seps ≤ endPos := by
  induction seps with
  | nil => simp [breakScan]
  | cons sep rest ih =>
    cases e : rfindIdx region sep with
    | none =>
      simp only [breakScan, e]
      exact ih
    | some i =>
      simp only [breakScan, e]
      split
      · have h2 := (rfindIdx_some e).2.1
        omega
      · exact ih

theorem breakScan_gt {min_chunk_size : Nat} {region : List Char}
    {start endPos : Nat} (h : start < endPos) (seps : List (List Char)) :
    start < breakScan min_chunk_size region start endPos seps := by
  induction seps with
  | nil => simpa [breakScan] using h
  | cons sep rest ih =>
    cases e : rfindIdx region sep with
    | none =>
      simp only [breakScan, e]
      exact ih
    | some i =>
      simp only [breakScan, e]
      split
      · omega
      · exact ih

/-- If no separator's last occurrence clears the minimum offset, the scan
keeps the original end. -/
theorem breakScan_none {min_chunk_size : Nat} {region : List Char}
    {start endPos : Nat} (seps : List (List Char))
    (h : ∀ sep ∈ seps, ∀ i, rfindIdx region sep = some i →
          i ≤ min_chunk_size) :
    breakScan min_chunk_size region start endPos seps = endPos := by
  induction seps with
  | nil => simp [breakScan]
  | cons sep rest ih =>
    cases e : rfindIdx region sep with
    | none =>
      simp only [breakScan, e]
      exact ih fun s hs => h s (List.mem_cons_of_mem _ hs)
    | some i =>
      have hle := h sep (List.mem_cons_self _ _) i e
      simp only [breakScan, e]
      rw [if_neg (by omega)]
      exact ih fun s hs => h s (List.mem_cons_of_mem _ hs)

/-- The first separator whose last occurrence clears the minimum offset
determines the result; later separators are never consulted. -/
theorem breakScan_first {min_chunk_size : Nat} {region : List Char}
    {start endPos : Nat} (seps : List (List Char))
    (k : Fin seps.length)
    (hbefore : ∀ j : Fin seps.length, j < k →
        ∀ i, rfindIdx region (seps.get j) = some i → i ≤ min_chunk_size)
    (i : Nat) (hk : rfindIdx region (seps.get k) = some i)
    (hgt : min_chunk_size < i) :
    breakScan min_chunk_size region start endPos seps
      = start + i + (seps.get k).length := by
  induction seps with
  | nil => exact absurd k.2 (by simp)
  | cons sep rest ih =>
    rcases k with ⟨kv, hkv⟩
    cases kv with
    | zero =>
      simp only [List.get] at hk
      simp only [breakScan, hk, if_pos hgt, List.get]
    | succ k' =>
      have hkv' : k' < rest.length := by simpa using Nat.lt_of_succ_lt_succ hkv
      have h0 : ∀ i, rfindIdx region sep = some i → i ≤ min_chunk_size := by
        intro i0 h0
        exact hbefore ⟨0, by omega⟩ (Nat.succ_pos k') i0 h0
      have hrest : ∀ j : Fin rest.length, j < (⟨k', hkv'⟩ : Fin rest.length) →
          ∀ i, rfindIdx region (rest.get j) = some i → i ≤ min_chunk_size := by
        intro j hj i0 hi0
        have hj' : j.1 < k' := hj
        exact hbefore ⟨j.1 + 1, by omega⟩ (Nat.succ_lt_succ hj') i0 hi0
      have hk' : rfindIdx region (rest.get ⟨k', hkv'⟩) = some i := hk
      have := ih ⟨k', hkv'⟩ hrest hk'
      cases e : rfindIdx region sep with
      | none =>
        simp only [breakScan, e]
        exact this
      | some i0 =>
        simp only [breakScan, e]
        rw [if_neg (by have := h0 i0 e; omega)]
        exact this

/-! ## Properties of `pySlice`, `pyStrip` and the chunk-end computation -/

theorem length_pySlice (l : List Char) (a b : Nat) :
    (pySlice l a b).length = min b l.length - a := by
  simp [pySlice]

theorem pyStrip_length_le (l : List Char) :
    (pyStrip l).length ≤ l.length := by
  unfold pyStrip
  have h1 := (List.dropWhile_sublist (l := l) (p := isPySpace)).length_le
  have h2 := (List.dropWhile_sublist
    (l := (l.dropWhile isPySpace).reverse) (p := isPySpace)).length_le
  simp only [List.length_reverse] at *
  omega

theorem pyStrip_eq_nil (l : List Char)
    (h : ∀ c ∈ l, isPySpace c = true) : pyStrip l = [] := by
  unfold pyStrip
  rw [List.dropWhile_eq_nil_iff.mpr h]
  simp

theorem chunkEnd_bounds (c : FixedSizeChunker) (text : List Char)
    (start : Nat) (h : start < text.length) :
    start < c.chunkEnd text start ∧ c.chunkEnd text start ≤ text.length ∧
      c.chunkEnd text start ≤ start + c.chunk_size := by
  have hpos := c.chunk_size_pos
  have he0 : c.tentativeEnd text start = min (start + c.chunk_size) text.length := rfl
  unfold FixedSizeChunker.chunkEnd
  split
  · rename_i hb
    have heq : c.tentativeEnd text start = start + c.chunk_size := by omega
    have hlt : start < c.tentativeEnd text start := by omega
    have hreg : start + (pySlice text start (c.tentativeEnd text start)).length
        ≤ c.tentativeEnd text start := by
      rw [length_pySlice]
      omega
    unfold FixedSizeChunker.find_break_point
    refine ⟨breakScan_gt hlt _, ?_, ?_⟩
    · calc breakScan _ _ _ _ _ ≤ c.tentativeEnd text start := breakScan_le hreg _
        _ ≤ text.length := by omega
    · calc breakScan _ _ _ _ _ ≤ c.tentativeEnd text start := breakScan_le hreg _
        _ ≤ start + c.chunk_size := by omega
  · rename_i hb
    refine ⟨by omega, by omega, by omega⟩

theorem nextStart_gt (c : FixedSizeChunker) (text : List Char)
    (start : Nat) (h : start < text.length) :
    start < c.nextStart text start := by
  have hb := chunkEnd_bounds c text start h
  unfold FixedSizeChunker.nextStart
  split
  · exact hb.1
  · omega

/-! ## The chunking loop's invariants -/

theorem chunkLoop_spec (c : FixedSizeChunker) (text : List Char) :
    ∀ (fuel start index : Nat),
      (∀ ch ∈ chunkLoop c text fuel start index,
          start ≤ ch.start ∧ ch.start < ch.endPos ∧ ch.endPos ≤ text.length ∧
          ch.text = pyStrip (pySlice text ch.start ch.endPos) ∧
          ch.text ≠ [] ∧ ch.text.length ≤ c.chunk_size) ∧
      (chunkLoop c text fuel start index).map Chunk.index
        = List.range' index (chunkLoop c text fuel start index).length ∧
      ((chunkLoop c text fuel start index).map Chunk.start).Pairwise (· < ·) := by
  intro fuel
  induction fuel with
  | zero =>
    intro start index
    simp [chunkLoop]
  | succ k ih =>
    intro start index
    by_cases hs : start < text.length
    case neg => simp [chunkLoop, hs]
    case pos =>
    obtain ⟨hb1, hb2, hb3⟩ := chunkEnd_bounds c text start hs
    have hlen : (pyStrip (pySlice text start (c.chunkEnd text start))).length
        ≤ c.chunk_size := by
      calc (pyStrip (pySlice text start (c.chunkEnd text start))).length
          ≤ (pySlice text start (c.chunkEnd text start)).length :=
            pyStrip_length_le _
        _ = min (c.chunkEnd text start) text.length - start :=
            length_pySlice _ _ _
        _ ≤ c.chunk_size := by omega
    by_cases hlast : text.length ≤ c.chunkEnd text start
    · by_cases hct : pyStrip (pySlice text start (c.chunkEnd text start)) = []
      · simp [chunkLoop, hs, hlast, hct]
      · have hres : chunkLoop c text (k + 1) start index
            = [⟨pyStrip (pySlice text start (c.chunkEnd text start)),
                start, c.chunkEnd text start, index⟩] := by
          simp [chunkLoop, hs, hlast, hct]
        rw [hres]
        refine ⟨?_, by simp [List.range'], by simp⟩
        intro ch hch
        rw [List.mem_singleton] at hch
        subst hch
        exact ⟨Nat.le_refl _, hb1, hb2, rfl, hct, hlen⟩
    · have hns := nextStart_gt c text start hs
      by_cases hct : pyStrip (pySlice text start (c.chunkEnd text start)) = []
      · have hres : chunkLoop c text (k + 1) start index
            = chunkLoop c text k (c.nextStart text start) index := by
          simp [chunkLoop, hs, hlast, hct]
        rw [hres]
        obtain ⟨ih1, ih2, ih3⟩ := ih (c.nextStart text start) index
        refine ⟨?_, ih2, ih3⟩
        intro ch hch
        obtain ⟨g1, g2⟩ := ih1 ch hch
        exact ⟨by omega, g2⟩
      · have hres : chunkLoop c text (k + 1) start index
            = ⟨pyStrip (pySlice text start (c.chunkEnd text start)),
               start, c.chunkEnd text start, index⟩
              :: chunkLoop c text k (c.nextStart text start) (index + 1) := by
          simp [chunkLoop, hs, hlast, hct]
        rw [hres]
        obtain ⟨ih1, ih2, ih3⟩ := ih (c.nextStart text start) (index + 1)
        refine ⟨?_, ?_, ?_⟩
        · intro ch hch
          rw [List.mem_cons] at hch
          rcases hch with hch | hch
          · subst hch
            exact ⟨Nat.le_refl _, hb1, hb2, rfl, hct, hlen⟩
          · obtain ⟨g1, g2⟩ := ih1 ch hch
            exact ⟨by omega, g2⟩
        · simp only [List.map_cons, List.length_cons, ih2]
          rw [List.range'_succ index _ 1]
        · rw [List.map_cons, List.pairwise_cons]
          refine ⟨?_, ih3⟩
          intro b hb
          rw [List.mem_map] at hb
          obtain ⟨ch, hch, hb⟩ := hb
          have := (ih1 ch hch).1
          show start < b
          omega

/-- Any two sufficient fuels compute the same result: with the
forced-progress guard the loop needs at most `len(text) - start + 1`
iterations, so the loop terminates. -/
theorem chunkLoop_fuel_eq (c : FixedSizeChunker) (text : List Char) :
    ∀ f g start index, text.length - start < f → text.length - start < g →
      chunkLoop c text f start index = chunkLoop c text g start index := by
  intro f
  induction f with
  | zero =>
    intro g start index hf hg
    omega
  | succ k ih =>
    intro g start index hf hg
    cases g with
    | zero => omega
    | succ m =>
      by_cases hs : start < text.length
      · by_cases hlast : text.length ≤ c.chunkEnd text start
        · simp [chunkLoop, hs, hlast]
        · have hns := nextStart_gt c text start hs
          have hrec := ih m (c.nextStart text start)
            (if pyStrip (pySlice text start (c.chunkEnd text start)) = []
             then index else index + 1)
            (by omega) (by omega)
          simp only [chunkLoop, if_pos hs, if_neg hlast]
          rw [hrec]
      · simp [chunkLoop, hs]

/-! ## Dict lemmas -/

theorem dictGet?_set (d : Dict) (k : String) (v : PyVal) (k' : String) :
    dictGet? (dictSet d k v) k' = if k' = k then some v else dictGet? d k' := by
  induction d with
  | nil =>
    simp only [dictSet, dictGet?]
    by_cases h : k' = k
    · subst h
      simp
    · rw [if_neg (fun hh => h hh.symm), if_neg h]
  | cons p rest ih =>
    by_cases hp : p.1 = k
    · simp only [dictSet, if_pos hp, dictGet?]
      by_cases hk : k' = k
      · subst hk
        simp
      · have hpk' : ¬p.1 = k' := by
          rw [hp]
          exact fun hh => hk hh.symm
        rw [if_neg (fun hh => hk hh.symm), if_neg hk, if_neg hpk']
    · simp only [dictSet, if_neg hp, dictGet?]
      by_cases hk : k' = k
      · subst hk
        rw [if_neg hp, if_neg hp, ih]
      · rw [if_neg hk]
        by_cases hpk : p.1 = k'
        · rw [if_pos hpk, if_pos hpk]
        · rw [if_neg hpk, if_neg hpk, ih, if_neg hk]

theorem dictGet?_merge (a b : Dict) (k : String) :
    dictGet? (dictMerge a b) k = oOr (lastVal b k) (dictGet? a k) := by
  induction b generalizing a with
  | nil => simp [dictMerge, lastVal, oOr]
  | cons p rest ih =>
    show dictGet? (dictMerge (dictSet a p.1 p.2) rest) k = _
    rw [ih]
    cases hl : lastVal rest k with
    | some v => simp [lastVal, hl, oOr]
    | none =>
      simp only [lastVal, hl, oOr, dictGet?_set]
      by_cases hk : p.1 = k
      · rw [if_pos hk, if_pos (by rw [hk])]
      · rw [if_neg hk, if_neg (fun hh => hk hh.symm)]

theorem dictGet?_some_mem {d : Dict} {k : String} {v : PyVal}
    (h : dictGet? d k = some v) : k ∈ d.map Prod.fst := by
  induction d with
  | nil => cases h
  | cons p rest ih =>
    simp only [dictGet?] at h
    by_cases hp : p.1 = k
    · simp [hp]
    · rw [if_neg hp] at h
      simp [ih h]

/-- On a real dict (no repeated key) the merge-surviving value is just the
lookup. -/
theorem lastVal_eq_dictGet? {b : Dict} (h : (b.map Prod.fst).Nodup)
    (k : String) : lastVal b k = dictGet? b k := by
  induction b with
  | nil => rfl
  | cons p rest ih =>
    rw [List.map_cons, List.nodup_cons] at h
    obtain ⟨hnm, hnd⟩ := h
    simp only [lastVal, dictGet?, ih hnd]
    cases hl : dictGet? rest k with
    | some v =>
      have hk : k ∈ rest.map Prod.fst := dictGet?_some_mem hl
      have hp : ¬p.1 = k := fun hh => hnm (hh ▸ hk)
      simp [hp]
    | none => rfl

theorem dictGet?_setIfTruthy_ne (d : Dict) (k : String) (o : Option String)
    (k' : String) (h : ¬k' = k) :
    dictGet? (setIfTruthy d k o) k' = dictGet? d k' := by
  cases o with
  | none => rfl
  | some s =>
    simp only [setIfTruthy]
    split
    · rfl
    · rw [dictGet?_set, if_neg h]

theorem dictGet?_setIfTruthy_self (d : Dict) (k : String)
    (o : Option String) :
    dictGet? (setIfTruthy d k o) k
      = if truthy o = true then some (.vStr (o.getD "")) else dictGet? d k := by
  cases o with
  | none => simp [setIfTruthy, truthy]
  | some s =>
    simp only [setIfTruthy, truthy]
    by_cases hs : s == ""
    · rw [if_pos hs]
      simp [hs]
    · rw [if_neg hs, dictGet?_set, if_pos rfl]
      simp [hs]

theorem dictGet?_setIfTruthy (d : Dict) (k : String) (o : Option String)
    (k' : String) :
    dictGet? (setIfTruthy d k o) k'
      = if k' = k ∧ truthy o = true then some (.vStr (o.getD ""))
        else dictGet? d k' := by
  cases o with
  | none => simp [setIfTruthy, truthy]
  | some s =>
    simp only [setIfTruthy, truthy]
    by_cases hs : s == ""
    · rw [if_pos hs]
      simp [hs]
    · rw [if_neg hs, dictGet?_set]
      by_cases hk : k' = k
      · simp [hk, hs]
      · simp [hk]

/-- Auxiliary: when `rfind` finds nothing, the "last occurrence below the
minimum offset" condition holds vacuously. -/
theorem forall_some_le_of_none {w sep : List Char} {m : Nat}
    (h : rfindIdx w sep = none) :
    ∀ i, rfindIdx w sep = some i → i ≤ m := by
  intro i hi
  rw [h] at hi
  cases hi

/-! ## Claim theorems -/

/-- C1: whenever a chunk's tentative end is strictly below `len(text)`,
the chunker tries `". "`, `".\n"`, `"\n\n"`, `"\n"`, `" "` in that order
over the window `text[start:end]`; `rfindIdx` returns exactly the last
occurrence (first conjunct); if no separator's last occurrence strictly
exceeds `chunk_size / 2` the tentative end is kept (second conjunct); and
for the first separator whose last occurrence does, the end becomes
`start + offset + len(sep)` and later separators are not consulted (third
conjunct). -/
theorem find_break_point_spec (c : FixedSizeChunker) (text : List Char)
    (start : Nat) (_h : c.tentativeEnd text start < text.length) :
    (∀ sep i,
        rfindIdx (pySlice text start (c.tentativeEnd text start)) sep = some i
          ↔ (i ≤ (pySlice text start (c.tentativeEnd text start)).length ∧
             sep.isPrefixOf
               ((pySlice text start (c.tentativeEnd text start)).drop i) = true ∧
             ∀ j, j ≤ (pySlice text start (c.tentativeEnd text start)).length →
               sep.isPrefixOf
                 ((pySlice text start (c.tentativeEnd text start)).drop j) = true →
               j ≤ i)) ∧
    ((∀ sep ∈ SENTENCE_SEPARATORS, ∀ i,
        rfindIdx (pySlice text start (c.tentativeEnd text start)) sep = some i →
          i ≤ c.chunk_size / 2) →
      c.find_break_point text start (c.tentativeEnd text start)
        = c.tentativeEnd text start) ∧
    (∀ k : Fin SENTENCE_SEPARATORS.length,
      (∀ j : Fin SENTENCE_SEPARATORS.length, j < k → ∀ i,
          rfindIdx (pySlice text start (c.tentativeEnd text start))
              (SENTENCE_SEPARATORS.get j) = some i →
            i ≤ c.chunk_size / 2) →
      ∀ i,
        rfindIdx (pySlice text start (c.tentativeEnd text start))
            (SENTENCE_SEPARATORS.get k) = some i →
        c.chunk_size / 2 < i →
        c.find_break_point text start (c.tentativeEnd text start)
          = start + i + (SENTENCE_SEPARATORS.get k).length) := by
  refine ⟨fun sep i => rfindIdx_iff _ sep i, ?_, ?_⟩
  · intro hall
    exact breakScan_none _ hall
  · intro k hbefore i hk hgt
    exact breakScan_first _ k hbefore i hk hgt

/-- Witness for C1 on `guardText` with `chunk_size = 10`: the first four
separators do not occur in the window `"abcdef ghi"`, the space`" "` last
occurs at offset `6 > 10 / 2`, and the break point becomes
`0 + 6 + 1 = 7`. -/
theorem find_break_point_spec_witness :
    guardChunker.tentativeEnd guardText 0 < guardText.length ∧
    guardChunker.find_break_point guardText 0
        (guardChunker.tentativeEnd guardText 0)
      = 0 + 6 + (SENTENCE_SEPARATORS.get ⟨4, by decide⟩).length :=
  ⟨by decide,
   (find_break_point_spec guardChunker guardText 0 (by decide)).2.2
     ⟨4, by decide⟩
     (by
       intro j hj i hi
       fin_cases j
       · exact forall_some_le_of_none (by decide) i hi
       · exact forall_some_le_of_none (by decide) i hi
       · exact forall_some_le_of_none (by decide) i hi
       · exact forall_some_le_of_none (by decide) i hi
       · exact absurd hj (by decide))
     6 (by decide) (by decide)⟩

/-- C2: every emitted chunk satisfies `0 ≤ start < end ≤ len(text)`
(`start : ℕ`, so `0 ≤ start` also holds by typing), the `start` fields
strictly increase across the emitted sequence, and the `index` fields are
exactly `0, 1, …, n-1` in emission order. -/
theorem chunk_invariants (c : FixedSizeChunker) (text : List Char) :
    (∀ ch ∈ c.chunk text,
        0 ≤ ch.start ∧ ch.start < ch.endPos ∧ ch.endPos ≤ text.length) ∧
    ((c.chunk text).map Chunk.start).Pairwise (· < ·) ∧
    (c.chunk text).map Chunk.index = List.range (c.chunk text).length := by
  unfold FixedSizeChunker.chunk
  split
  · simp
  · obtain ⟨h1, h2, h3⟩ := chunkLoop_spec c text (text.length + 1) 0 0
    refine ⟨fun ch hm => ⟨Nat.zero_le _, (h1 ch hm).2.1, (h1 ch hm).2.2.1⟩,
      h3, ?_⟩
    rw [h2]
    exact (List.range_eq_range' _).symm

/-- Witness for C2: the second chunk of `sampleText` under the 5/2
chunker. -/
theorem chunk_invariants_witness :
    (⟨"defgh".toList, 3, 8, 1⟩ : Chunk) ∈ sampleChunker.chunk sampleText ∧
    (0 ≤ (3 : Nat) ∧ 3 < 8 ∧ 8 ≤ sampleText.length) :=
  ⟨by decide,
   (chunk_invariants sampleChunker sampleText).1 ⟨"defgh".toList, 3, 8, 1⟩
     (by decide)⟩

/-- C3: every emitted chunk's `text` is `text[start:end]` stripped of
leading/trailing whitespace (with `start`/`end` the pre-strip window
boundaries), is non-empty, and has length at most `chunk_size`. -/
theorem chunk_text_stripped (c : FixedSizeChunker) (text : List Char) :
    ∀ ch ∈ c.chunk text,
      ch.text = pyStrip (pySlice text ch.start ch.endPos) ∧
      ch.text ≠ [] ∧ ch.text.length ≤ c.chunk_size := by
  intro ch hm
  unfold FixedSizeChunker.chunk at hm
  split at hm
  · cases hm
  · obtain ⟨h1, _, _⟩ := chunkLoop_spec c text (text.length + 1) 0 0
    exact ⟨(h1 ch hm).2.2.2.1, (h1 ch hm).2.2.2.2.1, (h1 ch hm).2.2.2.2.2⟩

/-- Witness for C3: the first chunk of `guardText` has window
`"abcdef "` (`[0,7)`) and stripped text `"abcdef"`, a genuinely shorter
text than the window. -/
theorem chunk_text_stripped_witness :
    (⟨"abcdef".toList, 0, 7, 0⟩ : Chunk) ∈ guardChunker.chunk guardText ∧
    ("abcdef".toList = pyStrip (pySlice guardText 0 7) ∧
     "abcdef".toList ≠ [] ∧
     "abcdef".toList.length ≤ guardChunker.chunk_size) :=
  ⟨by decide,
   chunk_text_stripped guardChunker guardText ⟨"abcdef".toList, 0, 7, 0⟩
     (by decide)⟩

/-- C4: chunking the empty string or any all-whitespace string yields the
empty sequence. -/
theorem chunk_whitespace_empty (c : FixedSizeChunker) (text : List Char)
    (h : ∀ ch ∈ text, isPySpace ch = true) :
    c.chunk text = [] := by
  unfold FixedSizeChunker.chunk
  rw [if_pos (pyStrip_eq_nil text h)]

/-- Witness for C4: `chunk("") = []` and `chunk("   \n\t ") = []`. -/
theorem chunk_whitespace_empty_witness :
    sampleChunker.chunk [] = [] ∧
    sampleChunker.chunk "   \n\t ".toList = [] :=
  ⟨chunk_whitespace_empty sampleChunker [] (by decide),
   chunk_whitespace_empty sampleChunker _ (by decide)⟩

/-- C5: construction fails with the `InvalidConfiguration` error
(`ValueError` in the code) exactly when `chunk_size ≤ 0`, `overlap < 0` or
`overlap ≥ chunk_size`; every configuration that passes construction
carries `0 < chunk_size` and `overlap < chunk_size`, under which `chunk`
is a total function (no error path exists at chunk time). -/
theorem init_validation (chunk_size overlap : Int) :
    ((∃ e, FixedSizeChunker.init chunk_size overlap = .error e)
        ↔ (chunk_size ≤ 0 ∨ overlap < 0 ∨ chunk_size ≤ overlap)) ∧
    ((∃ c, FixedSizeChunker.init chunk_size overlap = .ok c)
        ↔ (0 < chunk_size ∧ 0 ≤ overlap ∧ overlap < chunk_size)) ∧
    (∀ c, FixedSizeChunker.init chunk_size overlap = .ok c →
        0 < c.chunk_size ∧ c.overlap < c.chunk_size) := by
  refine ⟨?_, ?_, fun c _ => ⟨c.chunk_size_pos, c.overlap_lt⟩⟩ <;>
    unfold FixedSizeChunker.init <;>
    split <;> rename_i h1
  · simp
    omega
  · split <;> rename_i h2
    · simp
      omega
    · split <;> rename_i h3
      · simp
        omega
      · simp
        omega
  · simp
    omega
  · split <;> rename_i h2
    · simp
      omega
    · split <;> rename_i h3
      · simp
        omega
      · simp
        omega

/-- Witness for C5: `chunk_size = 0` is rejected, `(10, 3)` is accepted. -/
theorem init_validation_witness :
    (∃ e, FixedSizeChunker.init 0 10 = .error e) ∧
    (∃ c, FixedSizeChunker.init 10 3 = .ok c) :=
  ⟨(init_validation 0 10).1.mpr (by decide),
   (init_validation 10 3).2.1.mpr (by decide)⟩

/-- C10: the loop makes strict progress — when `end - overlap` does not
advance past `start` the guard sets the next start to `end`, and `end` is
always strictly greater than `start` — so any two sufficient fuels give
the same result: the loop terminates. -/
theorem chunk_progress_terminates (c : FixedSizeChunker) (text : List Char) :
    (∀ start, start < text.length → start < c.nextStart text start) ∧
    (∀ start, c.chunkEnd text start - c.overlap ≤ start →
        c.nextStart text start = c.chunkEnd text start) ∧
    (∀ start, start < text.length → start < c.chunkEnd text start) ∧
    (∀ f g start index, text.length - start < f → text.length - start < g →
        chunkLoop c text f start index = chunkLoop c text g start index) := by
  refine ⟨fun s hs => nextStart_gt c text s hs, ?_,
    fun s hs => (chunkEnd_bounds c text s hs).1, chunkLoop_fuel_eq c text⟩
  intro s hcond
  unfold FixedSizeChunker.nextStart
  rw [if_pos hcond]

/-- Witness for C10 on `guardText` with `chunk_size = 10, overlap = 9`:
at `start = 0` the guard condition `end - overlap ≤ start` really fires
(`7 - 9 ≤ 0`), the next start is `end = 7 > 0`, and two sufficient fuels
agree. -/
theorem chunk_progress_terminates_witness :
    (0 < guardChunker.nextStart guardText 0) ∧
    (guardChunker.nextStart guardText 0 = guardChunker.chunkEnd guardText 0) ∧
    (0 < guardChunker.chunkEnd guardText 0) ∧
    chunkLoop guardChunker guardText 18 0 0
      = chunkLoop guardChunker guardText 99 0 0 :=
  ⟨(chunk_progress_terminates guardChunker guardText).1 0 (by decide),
   (chunk_progress_terminates guardChunker guardText).2.1 0 (by decide),
   (chunk_progress_terminates guardChunker guardText).2.2.1 0 (by decide),
   (chunk_progress_terminates guardChunker guardText).2.2.2 18 99 0 0
     (by decide) (by decide)⟩

/-- C6: when the chunker yields zero chunks, `add_memory` returns
`{memory_ids: [], chunks_created: 0}` as a normal outcome; the trace shows
the chunker was called once and the embedding provider and vector store
were not called at all. -/
theorem addMemory_zero_chunks (env : Env) (c : FixedSizeChunker)
    (content : List Char) (metadata : Dict)
    (user_id session_id agent_name : Option String)
    (h : c.chunk content = []) :
    addMemory env c content metadata user_id session_id agent_name
      = (⟨[], 0⟩, ⟨[content], [], [], []⟩) := by
  simp [addMemory, h]

/-- Witness for C6 at empty content. -/
theorem addMemory_zero_chunks_witness :
    sampleChunker.chunk [] = [] ∧
    addMemory sampleEnv sampleChunker [] [] none none none
      = (⟨[], 0⟩, ⟨[[]], [], [], []⟩) :=
  ⟨by decide,
   addMemory_zero_chunks sampleEnv sampleChunker [] [] none none none
     (by decide)⟩

/-- C7: with `n ≥ 1` chunks, `add_memory` makes exactly one store call
whose metadata list is, per chunk, the union of base metadata, caller
metadata and the four chunk keys with later layers winning on collision
(stated via lookups); the chunk layer holds
`chunk_index`/`chunk_start`/`chunk_end`/`total_chunks`; the base layer
holds `timestamp` and `content_hash` (the first 16 hex characters of the
SHA-256 of the unchunked content) plus the identity fields only when
truthy; and when the caller does not shadow it, every chunk's persisted
`content_hash` equals that same value. -/
theorem addMemory_metadata (env : Env) (c : FixedSizeChunker)
    (content : List Char) (metadata : Dict)
    (user_id session_id agent_name : Option String)
    (hnd : (metadata.map Prod.fst).Nodup)
    (hne : c.chunk content ≠ []) :
    ((addMemory env c content metadata user_id session_id agent_name).2.addCalls
      = [(env.embed ((c.chunk content).map Chunk.text),
          (c.chunk content).map Chunk.text,
          (c.chunk content).map fun ch =>
            chunkMeta (baseMetadata env content user_id session_id agent_name)
              metadata ch (c.chunk content).length)]) ∧
    (∀ ch : Chunk, ∀ k : String,
        dictGet? (chunkMeta
            (baseMetadata env content user_id session_id agent_name)
            metadata ch (c.chunk content).length) k
          = oOr (dictGet? (chunkFields ch (c.chunk content).length) k)
              (oOr (dictGet? metadata k)
                (dictGet?
                  (baseMetadata env content user_id session_id agent_name) k))) ∧
    (∀ ch : Chunk, ∀ n : Nat,
        dictGet? (chunkFields ch n) "chunk_index" = some (.vInt ch.index) ∧
        dictGet? (chunkFields ch n) "chunk_start" = some (.vInt ch.start) ∧
        dictGet? (chunkFields ch n) "chunk_end" = some (.vInt ch.endPos) ∧
        dictGet? (chunkFields ch n) "total_chunks" = some (.vInt n)) ∧
    (dictGet? (baseMetadata env content user_id session_id agent_name)
        "timestamp" = some (.vStr env.now_iso) ∧
     dictGet? (baseMetadata env content user_id session_id agent_name)
        "content_hash" = some (.vStr ((env.sha256hex content).take 16)) ∧
     dictGet? (baseMetadata env content user_id session_id agent_name)
        "user_id"
        = (if truthy user_id = true
           then some (.vStr (user_id.getD "")) else none) ∧
     dictGet? (baseMetadata env content user_id session_id agent_name)
        "session_id"
        = (if truthy session_id = true
           then some (.vStr (session_id.getD "")) else none) ∧
     dictGet? (baseMetadata env content user_id session_id agent_name)
        "agent_name"
        = (if truthy agent_name = true
           then some (.vStr (agent_name.getD "")) else none)) ∧
    (dictGet? metadata "content_hash" = none →
      ∀ ch : Chunk,
        dictGet? (chunkMeta
            (baseMetadata env content user_id session_id agent_name)
            metadata ch (c.chunk content).length) "content_hash"
          = some (.vStr ((env.sha256hex content).take 16))) := by
  have hmerge : ∀ ch : Chunk, ∀ k : String,
      dictGet? (chunkMeta
          (baseMetadata env content user_id session_id agent_name)
          metadata ch (c.chunk content).length) k
        = oOr (dictGet? (chunkFields ch (c.chunk content).length) k)
            (oOr (dictGet? metadata k)
              (dictGet?
                (baseMetadata env content user_id session_id agent_name) k)) := by
    intro ch k
    unfold chunkMeta
    rw [dictGet?_merge, dictGet?_merge,
      lastVal_eq_dictGet? (b := chunkFields ch (c.chunk content).length)
        (by simp [chunkFields]) k,
      lastVal_eq_dictGet? hnd k]
  have hbase :
      dictGet? (baseMetadata env content user_id session_id agent_name)
          "content_hash" = some (.vStr ((env.sha256hex content).take 16)) := by
    unfold baseMetadata
    rw [dictGet?_setIfTruthy, dictGet?_setIfTruthy, dictGet?_setIfTruthy,
      if_neg (fun hh => absurd hh.1 (by decide)),
      if_neg (fun hh => absurd hh.1 (by decide)),
      if_neg (fun hh => absurd hh.1 (by decide))]
    rfl
  refine ⟨?_, hmerge, fun ch n => ⟨rfl, rfl, rfl, rfl⟩, ⟨?_, hbase, ?_, ?_, ?_⟩, ?_⟩
  · simp [addMemory, hne]
  · unfold baseMetadata
    rw [dictGet?_setIfTruthy, dictGet?_setIfTruthy, dictGet?_setIfTruthy,
      if_neg (fun hh => absurd hh.1 (by decide)),
      if_neg (fun hh => absurd hh.1 (by decide)),
      if_neg (fun hh => absurd hh.1 (by decide))]
    rfl
  · unfold baseMetadata
    rw [dictGet?_setIfTruthy, dictGet?_setIfTruthy, dictGet?_setIfTruthy,
      if_neg (fun hh => absurd hh.1 (by decide)),
      if_neg (fun hh => absurd hh.1 (by decide))]
    by_cases ht : truthy user_id = true
    · rw [if_pos ⟨rfl, ht⟩, if_pos ht]
    · rw [if_neg (fun hh => ht hh.2), if_neg ht]
      rfl
  · unfold baseMetadata
    rw [dictGet?_setIfTruthy, dictGet?_setIfTruthy, dictGet?_setIfTruthy,
      if_neg (fun hh => absurd hh.1 (by decide))]
    by_cases ht : truthy session_id = true
    · rw [if_pos ⟨rfl, ht⟩, if_pos ht]
    · rw [if_neg (fun hh => ht hh.2),
        if_neg (fun hh => absurd hh.1 (by decide)), if_neg ht]
      rfl
  · unfold baseMetadata
    rw [dictGet?_setIfTruthy]
    by_cases ht : truthy agent_name = true
    · rw [if_pos ⟨rfl, ht⟩, if_pos ht]
    · rw [if_neg (fun hh => ht hh.2), dictGet?_setIfTruthy,
        dictGet?_setIfTruthy,
        if_neg (fun hh => absurd hh.1 (by decide)),
        if_neg (fun hh => absurd hh.1 (by decide)), if_neg ht]
      rfl
  · intro hno ch
    rw [hmerge ch "content_hash", hno, hbase]
    rfl

/-- Witness for C7: two chunks of `sampleText`, caller metadata
`{"k": "v"}`, `user_id = "u"`; the first chunk's persisted `content_hash`
is the first 16 characters of the (fixed) hash. -/
theorem addMemory_metadata_witness :
    (([("k", PyVal.vStr "v")].map Prod.fst).Nodup) ∧
    sampleChunker.chunk sampleText ≠ [] ∧
    dictGet? (chunkMeta
        (baseMetadata sampleEnv sampleText (some "u") none none)
        [("k", PyVal.vStr "v")] ⟨"abcde".toList, 0, 5, 0⟩
        (sampleChunker.chunk sampleText).length) "content_hash"
      = some (.vStr ((sampleEnv.sha256hex sampleText).take 16)) :=
  ⟨by decide, by decide,
   (addMemory_metadata sampleEnv sampleChunker sampleText
       [("k", PyVal.vStr "v")] (some "u") none none
       (by decide) (by decide)).2.2.2.2
     rfl ⟨"abcde".toList, 0, 5, 0⟩⟩

/-- C8: per event, a plain-string content yields the line
`"{author}: {content}"` with `author` defaulting to `"unknown"`, a dict
content with a `parts` list yields one line per usable part, and non-dict
events or absent content yield nothing; the lines are joined with `"\n"`
(the claim's two-event example produces
`"user: Hello\nassistant: Hi"`); an empty extraction short-circuits to
the empty response without touching chunker/embedder/store, and otherwise
the call delegates to `add_memory` with `metadata={"source": "session"}`
and `agent_name = app_name`. -/
theorem add_session_extraction (env : Env) (c : FixedSizeChunker)
    (session_id user_id : String) (events : List PyVal)
    (app_name : Option String) :
    (∀ ev : PyVal, (∀ d, ev ≠ PyVal.vDict d) → eventLines ev = []) ∧
    (∀ d : Dict, dictGet? d "content" = none → eventLines (.vDict d) = []) ∧
    (∀ d : Dict, ∀ s : String, dictGet? d "content" = some (.vStr s) →
        eventLines (.vDict d)
          = [pyStrOf ((dictGet? d "author").getD (.vStr "unknown"))
              ++ ": " ++ s]) ∧
    (∀ d cd : Dict, ∀ ps : List PyVal,
        dictGet? d "content" = some (.vDict cd) →
        dictGet? cd "parts" = some (.vList ps) →
        eventLines (.vDict d)
          = ps.filterMap (partLine
              (pyStrOf ((dictGet? d "author").getD (.vStr "unknown"))))) ∧
    ((events.map eventLines).flatten = [] →
        addSessionToMemory env c session_id user_id events app_name
          = (⟨[], 0⟩, ⟨[], [], [], []⟩)) ∧
    ((events.map eventLines).flatten ≠ [] →
        addSessionToMemory env c session_id user_id events app_name
          = addMemory env c
              (String.intercalate "\n" (events.map eventLines).flatten).toList
              [("source", PyVal.vStr "session")] (some user_id)
              (some session_id) app_name) ∧
    ((sessionEvents.map eventLines).flatten
        = ["user: Hello", "assistant: Hi"] ∧
     String.intercalate "\n" ["user: Hello", "assistant: Hi"]
        = "user: Hello\nassistant: Hi") := by
  refine ⟨?_, ?_, ?_, ?_, ?_, ?_, by decide, rfl⟩
  · intro ev hd
    cases ev with
    | vDict d => exact absurd rfl (hd d)
    | vStr s => rfl
    | vInt n => rfl
    | vNone => rfl
    | vList l => rfl
  · intro d h
    simp [eventLines, h]
  · intro d s h
    simp [eventLines, h]
  · intro d cd ps h1 h2
    simp [eventLines, h1, h2]
  · intro h
    simp [addSessionToMemory, h]
  · intro h
    simp [addSessionToMemory, h]

/-- Witness for C8: the plain-string case on the first example event, and
the delegation case on the full example event list. -/
theorem add_session_extraction_witness :
    (eventLines (.vDict [("author", .vStr "user"), ("content", .vStr "Hello")])
      = [pyStrOf ((dictGet? [("author", PyVal.vStr "user"),
            ("content", PyVal.vStr "Hello")] "author").getD (.vStr "unknown"))
          ++ ": " ++ "Hello"]) ∧
    addSessionToMemory sampleEnv sampleChunker "s1" "u1" sessionEvents none
      = addMemory sampleEnv sampleChunker
          (String.intercalate "\n" (sessionEvents.map eventLines).flatten).toList
          [("source", PyVal.vStr "session")] (some "u1") (some "s1") none :=
  ⟨(add_session_extraction sampleEnv sampleChunker "s1" "u1" sessionEvents
      none).2.2.1
     [("author", PyVal.vStr "user"), ("content", PyVal.vStr "Hello")]
     "Hello" rfl,
   (add_session_extraction sampleEnv sampleChunker "s1" "u1" sessionEvents
      none).2.2.2.2.2.1 (by decide)⟩

/-- Counterexample to C9 as stated: with `user_id = ""` (non-null), the
claim predicts the filters map `{"user_id": ""}` is passed to the store,
but the code tests Python truthiness, drops the empty string, and passes
`None`. -/
theorem search_filters_nonnull_counterexample :
    (searchMemory sampleEnv emptyUserReq).2.searchCalls.map
        (fun t => t.2.2.1) = [none] ∧
    claimMergedFilters emptyUserReq = [("user_id", PyVal.vStr "")] ∧
    ([(none : Option Dict)] ≠ [some [("user_id", PyVal.vStr "")]]) :=
  ⟨rfl, rfl, by simp⟩

/-- C9 (amended): the filters passed to the vector store are the
caller-supplied filters with `user_id`/`session_id`/`agent_name` added
only when TRUTHY (non-null and non-empty), these overriding same-named
caller keys, and `None` passed when the merged map is empty; each store
result maps to `{content, metadata, score, memory_id}` in store order and
the original query is echoed unchanged. -/
theorem search_memory_spec (env : Env) (req : MemorySearchRequest) :
    (∀ k, dictGet? (mergedFilters req) k
        = if k = "agent_name" ∧ truthy req.agent_name = true
          then some (.vStr (req.agent_name.getD ""))
          else if k = "session_id" ∧ truthy req.session_id = true
          then some (.vStr (req.session_id.getD ""))
          else if k = "user_id" ∧ truthy req.user_id = true
          then some (.vStr (req.user_id.getD ""))
          else dictGet? req.filters k) ∧
    ((searchMemory env req).2.searchCalls
      = [((env.embed [req.query.toList]).headD [], req.top_k,
          (if (mergedFilters req).isEmpty then none
           else some (mergedFilters req)),
          req.score_threshold)]) ∧
    ((searchMemory env req).1.query = req.query) ∧
    ((searchMemory env req).1.results
      = (env.storeSearch ((env.embed [req.query.toList]).headD [])
          req.top_k
          (if (mergedFilters req).isEmpty then none
           else some (mergedFilters req))
          req.score_threshold).map
          fun h => ⟨h.content, h.metadata, h.score, h.id⟩) := by
  refine ⟨?_, rfl, rfl, rfl⟩
  intro k
  unfold mergedFilters
  rw [dictGet?_setIfTruthy, dictGet?_setIfTruthy, dictGet?_setIfTruthy]

end KagentMemory
